import Mathlib

/-!
Verification of the Held-Karp TSP solver in `src/TSP.cpp` (`heldKarp`).

The C++ function is embedded shallowly:

* costs are rationals (the source uses `double`; its arithmetic here is exact,
  which matches the spec's "costs are accumulated as real numbers");
* the sentinel `INF` is `numeric_limits<int>::max() = 2147483647`, a finite
  number, exactly as in the source;
* the DP table produced by the forward pass is the function `dpT`: each cell
  `dp[subset][i]` is written exactly once, during the iteration for its own
  `subset`, reading only cells of numerically smaller subsets, so the final
  table satisfies the recursion captured by `dpAux` (fuel-based structural
  recursion, with `S ^^^ (1 <<< i) < S` whenever bit `i` is set);
* undefined behaviour of the C++ (out-of-bounds vector access when
  `lastNode == -1`, and the infinite backtracking loop when no predecessor
  matches) is modelled by `Option`: `heldKarp` returns `none` exactly when the
  source has no defined result.

Spec-side (mathematical) definitions: `edgeSum`, `IsPathOver`, `IsTour`,
`tourCosts` state what a simple path / Hamiltonian tour is, and `mAux`/`mT` is
the exact (unclamped, `WithTop ℚ`-valued) minimum-path-cost table used to
relate the clamped source table to true path minima.
-/

namespace TSP

/-- Unreachable sentinel of the source: `numeric_limits<int>::max()`, a finite
rational, not a true infinity. -/
def INF : ℚ := 2147483647

/-- Matrix lookup `graph[j][i]` of the source. Out-of-range reads default to
`0`; every theorem below assumes a square matrix and in-range indices, so the
default is never consulted. -/
def cOf (g : List (List ℚ)) (j i : ℕ) : ℚ := (g.getD j []).getD i 0

/-- Fuel-indexed form of the forward pass of `heldKarp` (TSP.cpp lines 26-45).
`dpAux c n s fuel S i` is the final value of cell `dp[S][i]`: starting from the
cell's initial value (`0` for the base cell `dp[1 << s][s]`, `INF` otherwise,
line 26 and 29), the inner `j` loop (lines 38-43) relaxes with
`dp[S ^ (1 << i)][j] + c j i` over all `j` in `S` with `j ≠ i`. The fuel is
only a termination device; `S ^^^ (1 <<< i)` is numerically smaller than `S`
whenever bit `i` of `S` is set, so any fuel `≥ S` computes the table value. -/
def dpAux (c : ℕ → ℕ → ℚ) (n s : ℕ) : ℕ → ℕ → ℕ → ℚ
  | 0, _, _ => INF
  | fuel + 1, S, i =>
    if S.testBit i then
      ((List.range n).filter (fun j => S.testBit j && (j != i))).foldl
        (fun acc j => min acc (dpAux c n s fuel (S ^^^ (1 <<< i)) j + c j i))
        (if S = 1 <<< s ∧ i = s then 0 else INF)
    else INF

/-- The DP table after the forward pass: `dpT c n s S i` is `dp[S][i]`. -/
def dpT (c : ℕ → ℕ → ℚ) (n s S i : ℕ) : ℚ := dpAux c n s S S i

/-- One step of the closing-cost scan (TSP.cpp lines 50-57): skip the start
node, otherwise compare `dp[full][i] + graph[i][s]` against the running
minimum, strictly, so the first minimal index wins. -/
def pickStep (d : ℕ → ℚ) (c : ℕ → ℕ → ℚ) (s : ℕ) (acc : ℚ × Option ℕ) (i : ℕ) :
    ℚ × Option ℕ :=
  if i = s then acc
  else if d i + c i s < acc.1 then (d i + c i s, some i) else acc

/-- The closing-cost scan of `heldKarp`: returns `(minDistance, lastNode)`,
with `lastNode = none` playing the role of the C++ `-1`. -/
def pickLast (d : ℕ → ℚ) (c : ℕ → ℕ → ℚ) (n s : ℕ) : ℚ × Option ℕ :=
  (List.range n).foldl (pickStep d c s) (INF, none)

/-- Predecessor search of the backtracking loop (TSP.cpp lines 70-77): the
first `i` in increasing order that lies in `subset`, differs from `cur`, and
satisfies the exact equality `dp[subset][cur] = dp[subset ^ (1 << cur)][i] +
graph[i][cur]`. -/
def findPred (c : ℕ → ℕ → ℚ) (n s subset cur : ℕ) : Option ℕ :=
  (List.range n).find? fun i =>
    (i != cur) && subset.testBit i &&
      decide (dpT c n s subset cur = dpT c n s (subset ^^^ (1 <<< cur)) i + c i cur)

/-- Backtracking loop of `heldKarp` (TSP.cpp lines 67-78). Each iteration
pushes the 1-based current node and moves to the found predecessor; `none`
models the C++ behaviours with no defined result (no matching predecessor
makes the C++ `while` loop spin forever, and the fuel, `2 ^ n` at the call
site, exceeds the strictly decreasing `subset`, so fuel exhaustion never
happens on the defined executions). -/
def reconstructAux (c : ℕ → ℕ → ℚ) (n startNode : ℕ) :
    ℕ → ℕ → ℕ → List ℕ → Option (List ℕ)
  | 0, _, cur, path => if cur = startNode - 1 then some path else none
  | fuel + 1, subset, cur, path =>
    if cur = startNode - 1 then some path
    else
      match findPred c n (startNode - 1) subset cur with
      | some i =>
          reconstructAux c n startNode fuel (subset ^^^ (1 <<< cur)) i (path ++ [cur + 1])
      | none => none

/-- The whole of `heldKarp` (TSP.cpp lines 23-89): forward pass, closing-cost
scan, backtracking from `(full, lastNode)` with the path seeded by
`[startNode]`, final push of `startNode` and reversal. `none` models the
undefined behaviour of the C++ when `lastNode` stays `-1` (the reconstruction
then reads `dp[subset][-1]` out of bounds) and when the backtracking loop does
not terminate. -/
def heldKarp (g : List (List ℚ)) (startNode : ℕ) : Option (ℚ × List ℕ) :=
  let n := g.length
  let c := cOf g
  let s := startNode - 1
  let full := 2 ^ n - 1
  let res := pickLast (fun i => dpT c n s full i) c n s
  match res.2 with
  | none => none
  | some last =>
    match reconstructAux c n startNode (2 ^ n) full last [startNode] with
    | none => none
    | some path => some (res.1, (path ++ [startNode]).reverse)

/-- Sum of the costs of the consecutive edges of a visit list. -/
def edgeSum (c : ℕ → ℕ → ℚ) : List ℕ → ℚ
  | a :: b :: t => c a b + edgeSum c (b :: t)
  | _ => 0

/-- Modelled from the spec (section 3, DP table): `p` is a simple path that
starts at `s`, ends at `i`, and visits exactly the locations of the bitmask
`S`, each once. -/
def IsPathOver (s S i : ℕ) (p : List ℕ) : Prop :=
  p.Nodup ∧ p.head? = some s ∧ p.getLast? = some i ∧ ∀ x, x ∈ p ↔ S.testBit x

/-- Modelled from the spec (glossary, Hamiltonian cycle): `q` lists all `n`
locations exactly once, starting at `s`; the associated closed tour is
`q ++ [s]`. -/
def IsTour (n s : ℕ) (q : List ℕ) : Prop :=
  q.Nodup ∧ q.head? = some s ∧ ∀ x, x ∈ q ↔ x < n

/-- The set of total costs of Hamiltonian cycles through the (0-based) start
location, for a matrix `g` and a 1-based start index. -/
def tourCosts (g : List (List ℚ)) (startNode : ℕ) : Set ℚ :=
  {x | ∃ q, IsTour g.length (startNode - 1) q ∧
    x = edgeSum (cOf g) (q ++ [startNode - 1])}

/-- Modelled from the spec (sections 4.1 and 6): a valid input is a square
matrix of non-negative entries together with a 1-based start index in range. -/
def ValidInstance (g : List (List ℚ)) (startNode : ℕ) : Prop :=
  (∀ r ∈ g, r.length = g.length) ∧ (∀ r ∈ g, ∀ x ∈ r, 0 ≤ x) ∧
    1 ≤ startNode ∧ startNode ≤ g.length

/-- Exact minimum-path-cost table (spec side): the same recursion as `dpAux`
but valued in `WithTop ℚ` with no clamping at `INF`; `⊤` is true
unreachability. -/
def mAux (c : ℕ → ℕ → ℚ) (n s : ℕ) : ℕ → ℕ → ℕ → WithTop ℚ
  | 0, _, _ => ⊤
  | fuel + 1, S, i =>
    if S.testBit i then
      ((List.range n).filter (fun j => S.testBit j && (j != i))).foldl
        (fun acc j => min acc (mAux c n s fuel (S ^^^ (1 <<< i)) j + (c j i : WithTop ℚ)))
        (if S = 1 <<< s ∧ i = s then 0 else ⊤)
    else ⊤

/-- Exact minimum-path-cost table, fuel discharged. -/
def mT (c : ℕ → ℕ → ℚ) (n s S i : ℕ) : WithTop ℚ := mAux c n s S S i

/-- How the source table represents an exact value: true unreachability and
any value `≥ INF` collapse to the sentinel `INF`. -/
def clampQ (x : WithTop ℚ) : ℚ := if x = ⊤ then INF else min INF (x.untop' 0)

/-- The 0-based locations of a bitmask, in increasing order. -/
def maskList (n S : ℕ) : List ℕ := (List.range n).filter fun b => S.testBit b

/-- The matrix `g` with entry `(a, b)` (0-based) replaced by `v`; out-of-range
indices leave `g` unchanged. Used to state the single-entry monotonicity
property. -/
def setEntry (g : List (List ℚ)) (a b : ℕ) (v : ℚ) : List (List ℚ) :=
  g.set a ((g.getD a []).set b v)

/-! ### Bitmask lemmas -/

theorem xor_shift_lt {S i : ℕ} (h : S.testBit i = true) : S ^^^ (1 <<< i) < S := by
  rw [Nat.one_shiftLeft]
  refine Nat.lt_of_testBit i ?_ h ?_
  · simp [Nat.testBit_xor, h, Nat.testBit_two_pow_self]
  · intro j hj
    simp [Nat.testBit_xor, Nat.testBit_two_pow_of_ne (Nat.ne_of_lt hj)]

theorem testBit_xor_shift_self (S i : ℕ) : (S ^^^ (1 <<< i)).testBit i = !S.testBit i := by
  simp [Nat.one_shiftLeft, Nat.testBit_xor, Nat.testBit_two_pow_self]

theorem testBit_xor_shift_ne {i k : ℕ} (S : ℕ) (hk : k ≠ i) :
    (S ^^^ (1 <<< i)).testBit k = S.testBit k := by
  simp [Nat.one_shiftLeft, Nat.testBit_xor, Nat.testBit_two_pow_of_ne (Ne.symm hk)]

theorem lt_of_testBit_of_lt_two_pow {S n i : ℕ} (hS : S < 2 ^ n)
    (h : S.testBit i = true) : i < n := by
  by_contra hi
  have hlt : S < 2 ^ i :=
    lt_of_lt_of_le hS (Nat.pow_le_pow_right (by norm_num) (Nat.le_of_not_lt hi))
  rw [Nat.testBit_lt_two_pow hlt] at h
  exact Bool.noConfusion h

theorem eq_shift_of_testBit_iff {S s : ℕ} (h : ∀ k, S.testBit k = true ↔ k = s) :
    S = 1 <<< s := by
  rw [Nat.one_shiftLeft]
  refine Nat.eq_of_testBit_eq fun k => ?_
  rw [Nat.testBit_two_pow]
  by_cases hk : k = s
  · subst hk
    simp [(h k).2 rfl]
  · simp only [decide_eq_false (fun hsk => hk hsk.symm : ¬s = k)]
    by_contra hb
    exact hk ((h k).1 (by simpa using hb))

/-! ### Generic fold lemmas -/

theorem foldl_congr_fun {α β : Type} {f g : α → β → α} :
    ∀ (l : List β) (a : α), (∀ acc x, x ∈ l → f acc x = g acc x) →
      l.foldl f a = l.foldl g a
  | [], _, _ => rfl
  | y :: t, a, h => by
    simp only [List.foldl_cons]
    rw [h a y (List.mem_cons_self y t)]
    exact foldl_congr_fun t _ fun acc x hx => h acc x (List.mem_cons_of_mem y hx)

theorem foldl_min_le_start {α β : Type} [LinearOrder α] (f : β → α) :
    ∀ (l : List β) (a : α), l.foldl (fun acc j => min acc (f j)) a ≤ a
  | [], a => le_refl a
  | y :: t, a =>
    le_trans (foldl_min_le_start f t (min a (f y))) (min_le_left _ _)

theorem foldl_min_le_mem {α β : Type} [LinearOrder α] (f : β → α) :
    ∀ (l : List β) (a : α) (x : β), x ∈ l →
      l.foldl (fun acc j => min acc (f j)) a ≤ f x
  | y :: t, a, x, h => by
    rcases List.mem_cons.1 h with rfl | hx
    · exact le_trans (foldl_min_le_start f t (min a (f x))) (min_le_right _ _)
    · exact foldl_min_le_mem f t _ x hx

theorem foldl_min_eq_start_or_mem {α β : Type} [LinearOrder α] (f : β → α) :
    ∀ (l : List β) (a : α), l.foldl (fun acc j => min acc (f j)) a = a ∨
      ∃ x ∈ l, l.foldl (fun acc j => min acc (f j)) a = f x
  | [], a => Or.inl rfl
  | y :: t, a => by
    rcases foldl_min_eq_start_or_mem f t (min a (f y)) with h | ⟨x, hx, h⟩
    · simp only [List.foldl_cons]
      rcases min_cases a (f y) with ⟨hm, _⟩ | ⟨hm, _⟩
      · exact Or.inl (by rw [h, hm])
      · exact Or.inr ⟨y, List.mem_cons_self y t, by rw [h, hm]⟩
    · exact Or.inr ⟨x, List.mem_cons_of_mem y hx, h⟩

/-! ### The table recursion: fuel irrelevance and unfolding -/

theorem dpAux_fuel {c : ℕ → ℕ → ℚ} {n s : ℕ} :
    ∀ fuel S, S ≤ fuel → ∀ i, dpAux c n s fuel S i = dpAux c n s S S i := by
  intro fuel
  induction fuel using Nat.strong_induction_on with
  | _ fuel ih =>
    intro S hS i
    cases fuel with
    | zero =>
      obtain rfl := Nat.le_zero.1 hS
      rfl
    | succ f =>
      cases S with
      | zero => simp [dpAux, Nat.zero_testBit]
      | succ T =>
        simp only [dpAux]
        by_cases hb : (T + 1).testBit i
        · simp only [hb, if_true]
          refine foldl_congr_fun _ _ fun acc j _ => ?_
          have hX : (T + 1) ^^^ (1 <<< i) < T + 1 := xor_shift_lt hb
          rw [ih f (Nat.lt_succ_self f) _ (Nat.le_of_lt_succ (lt_of_lt_of_le hX hS)) j,
            ih T (Nat.lt_of_lt_of_le (Nat.lt_succ_self T) hS) _ (Nat.le_of_lt_succ hX) j]
        · simp [hb]

theorem dpT_eq (c : ℕ → ℕ → ℚ) (n s S i : ℕ) :
    dpT c n s S i =
      if S.testBit i then
        ((List.range n).filter (fun j => S.testBit j && (j != i))).foldl
          (fun acc j => min acc (dpT c n s (S ^^^ (1 <<< i)) j + c j i))
          (if S = 1 <<< s ∧ i = s then 0 else INF)
      else INF := by
  simp only [dpT]
  cases S with
  | zero => simp [dpAux, Nat.zero_testBit]
  | succ T =>
    simp only [dpAux]
    by_cases hb : (T + 1).testBit i
    · simp only [hb, if_true]
      refine foldl_congr_fun _ _ fun acc j _ => ?_
      rw [dpAux_fuel T _ (Nat.le_of_lt_succ (xor_shift_lt hb)) j]
    · simp [hb]

theorem mAux_fuel {c : ℕ → ℕ → ℚ} {n s : ℕ} :
    ∀ fuel S, S ≤ fuel → ∀ i, mAux c n s fuel S i = mAux c n s S S i := by
  intro fuel
  induction fuel using Nat.strong_induction_on with
  | _ fuel ih =>
    intro S hS i
    cases fuel with
    | zero =>
      obtain rfl := Nat.le_zero.1 hS
      rfl
    | succ f =>
      cases S with
      | zero => simp [mAux, Nat.zero_testBit]
      | succ T =>
        simp only [mAux]
        by_cases hb : (T + 1).testBit i
        · simp only [hb, if_true]
          refine foldl_congr_fun _ _ fun acc j _ => ?_
          have hX : (T + 1) ^^^ (1 <<< i) < T + 1 := xor_shift_lt hb
          rw [ih f (Nat.lt_succ_self f) _ (Nat.le_of_lt_succ (lt_of_lt_of_le hX hS)) j,
            ih T (Nat.lt_of_lt_of_le (Nat.lt_succ_self T) hS) _ (Nat.le_of_lt_succ hX) j]
        · simp [hb]

theorem mT_eq (c : ℕ → ℕ → ℚ) (n s S i : ℕ) :
    mT c n s S i =
      if S.testBit i then
        ((List.range n).filter (fun j => S.testBit j && (j != i))).foldl
          (fun acc j => min acc (mT c n s (S ^^^ (1 <<< i)) j + (c j i : WithTop ℚ)))
          (if S = 1 <<< s ∧ i = s then 0 else ⊤)
      else ⊤ := by
  simp only [mT]
  cases S with
  | zero => simp [mAux, Nat.zero_testBit]
  | succ T =>
    simp only [mAux]
    by_cases hb : (T + 1).testBit i
    · simp only [hb, if_true]
      refine foldl_congr_fun _ _ fun acc j _ => ?_
      rw [mAux_fuel T _ (Nat.le_of_lt_succ (xor_shift_lt hb)) j]
    · simp [hb]

/-! ### Relating the clamped source table to the exact table -/

theorem clampQ_top : clampQ ⊤ = INF := by simp [clampQ]

theorem clampQ_coe (q : ℚ) : clampQ (q : WithTop ℚ) = min INF q := by
  simp [clampQ, WithTop.coe_ne_top, WithTop.untop'_coe]

theorem clampQ_le_INF (x : WithTop ℚ) : clampQ x ≤ INF := by
  induction x using WithTop.recTopCoe with
  | top => rw [clampQ_top]
  | coe q => rw [clampQ_coe]; exact min_le_left _ _

theorem clampQ_min (a b : WithTop ℚ) : clampQ (min a b) = min (clampQ a) (clampQ b) := by
  induction a using WithTop.recTopCoe with
  | top =>
    rw [min_eq_right (le_top : b ≤ ⊤), clampQ_top]
    exact (min_eq_right (clampQ_le_INF b)).symm
  | coe p =>
    induction b using WithTop.recTopCoe with
    | top =>
      rw [min_eq_left (le_top : (p : WithTop ℚ) ≤ ⊤), clampQ_top]
      exact (min_eq_left (clampQ_le_INF _)).symm
    | coe q =>
      rw [← WithTop.coe_min, clampQ_coe, clampQ_coe, clampQ_coe, min_min_min_comm, min_self]

theorem clampQ_add {r : ℚ} (hr : 0 ≤ r) (x : WithTop ℚ) :
    clampQ (x + (r : WithTop ℚ)) = min INF (clampQ x + r) := by
  induction x using WithTop.recTopCoe with
  | top =>
    rw [WithTop.top_add, clampQ_top]
    exact (min_eq_left (le_add_of_nonneg_right hr)).symm
  | coe q =>
    rw [← WithTop.coe_add, clampQ_coe, clampQ_coe, ← min_add_add_right, ← min_assoc,
      min_eq_left (le_add_of_nonneg_right hr : INF ≤ INF + r)]

theorem clampQ_foldl {β : Type} (G : β → WithTop ℚ) (F : β → ℚ) :
    ∀ (l : List β) (a : WithTop ℚ), (∀ x ∈ l, clampQ (G x) = min INF (F x)) →
      clampQ (l.foldl (fun acc x => min acc (G x)) a) =
        l.foldl (fun acc x => min acc (F x)) (clampQ a)
  | [], _, _ => rfl
  | y :: t, a, h => by
    simp only [List.foldl_cons]
    rw [clampQ_foldl G F t _ fun x hx => h x (List.mem_cons_of_mem y hx)]
    congr 1
    rw [clampQ_min, h y (List.mem_cons_self y t), ← min_assoc,
      min_eq_left (clampQ_le_INF a)]

theorem dpT_eq_clampQ {c : ℕ → ℕ → ℚ} {n : ℕ} (s : ℕ) (hc : ∀ j i, 0 ≤ c j i) :
    ∀ S, S < 2 ^ n → ∀ i, dpT c n s S i = clampQ (mT c n s S i) := by
  intro S
  induction S using Nat.strong_induction_on with
  | _ S ih =>
    intro hS i
    rw [dpT_eq, mT_eq]
    by_cases hb : S.testBit i
    · simp only [hb, if_true]
      have hstep : ∀ x ∈ (List.range n).filter (fun j => S.testBit j && (j != i)),
          clampQ (mT c n s (S ^^^ (1 <<< i)) x + ((c x i : ℚ) : WithTop ℚ)) =
            min INF (dpT c n s (S ^^^ (1 <<< i)) x + c x i) := by
        intro x _
        rw [clampQ_add (hc x i), ih _ (xor_shift_lt hb) (lt_trans (xor_shift_lt hb) hS) x]
      rw [clampQ_foldl _ _ _ _ hstep]
      congr 1
      by_cases hbase : S = 1 <<< s ∧ i = s
      · rw [if_pos hbase, if_pos hbase,
          show ((0 : WithTop ℚ)) = ((0 : ℚ) : WithTop ℚ) from rfl, clampQ_coe,
          min_eq_right (show (0 : ℚ) ≤ INF by norm_num [INF])]
      · rw [if_neg hbase, if_neg hbase, clampQ_top]
    · rw [if_neg hb, if_neg hb, clampQ_top]

/-! ### Paths and their costs -/

theorem INF_nonneg : (0 : ℚ) ≤ INF := by norm_num [INF]

theorem edgeSum_nil (c : ℕ → ℕ → ℚ) : edgeSum c [] = 0 := rfl

theorem edgeSum_single (c : ℕ → ℕ → ℚ) (a : ℕ) : edgeSum c [a] = 0 := rfl

theorem mem_of_head_some {l : List ℕ} {a : ℕ} (h : l.head? = some a) : a ∈ l := by
  cases l with
  | nil => simp at h
  | cons x t =>
    obtain rfl : x = a := by simpa using h
    exact List.mem_cons_self x t

theorem mem_of_getLast_some {l : List ℕ} {a : ℕ} (h : l.getLast? = some a) : a ∈ l := by
  rcases List.eq_nil_or_concat l with rfl | ⟨L, b, rfl⟩
  · simp at h
  · rw [List.concat_eq_append, List.getLast?_concat] at h
    have hba : b = a := by simpa using h
    rw [List.concat_eq_append, ← hba]
    exact List.mem_append_right L (List.mem_cons_self b [])

theorem exists_getLast_some {l : List ℕ} (h : l ≠ []) : ∃ a, l.getLast? = some a := by
  rcases List.eq_nil_or_concat l with rfl | ⟨L, b, rfl⟩
  · exact absurd rfl h
  · exact ⟨b, by rw [List.concat_eq_append, List.getLast?_concat]⟩

theorem edgeSum_concat (c : ℕ → ℕ → ℚ) :
    ∀ (p : List ℕ) (j i : ℕ), p.getLast? = some j →
      edgeSum c (p ++ [i]) = edgeSum c p + c j i
  | [], j, _, h => by
    rw [List.getLast?_nil] at h
    exact Option.noConfusion h
  | [x], j, i, h => by
    have hxj : x = j := by simpa using h
    show c x i + edgeSum c [i] = edgeSum c [x] + c j i
    rw [edgeSum_single, edgeSum_single, hxj]
    ring
  | x :: y :: t, j, i, h => by
    have h2 : (y :: t).getLast? = some j := by
      rw [List.getLast?_cons_cons] at h
      exact h
    show c x y + edgeSum c ((y :: t) ++ [i]) = (c x y + edgeSum c (y :: t)) + c j i
    rw [edgeSum_concat c (y :: t) j i h2, add_assoc]

theorem isPathOver_closed {s S : ℕ} {p : List ℕ} (h : IsPathOver s S s p) :
    p = [s] ∧ S = 1 <<< s := by
  obtain ⟨hnd, hhd, hlast, hmem⟩ := h
  rcases List.eq_nil_or_concat p with rfl | ⟨L, b, rfl⟩
  · simp at hhd
  · rw [List.concat_eq_append] at hnd hhd hlast hmem ⊢
    obtain rfl : s = b := (by simpa [List.getLast?_concat] using hlast : b = s).symm
    cases L with
    | nil =>
      refine ⟨rfl, eq_shift_of_testBit_iff fun k => ?_⟩
      rw [← hmem k]
      simp
    | cons x t =>
      exfalso
      obtain rfl : s = x := (by simpa using hhd : x = s).symm
      have hdisj := (List.nodup_append.1 hnd).2.2
      exact hdisj (List.mem_cons_self s t) (by simp)

/-! ### The exact table computes minimum path costs -/

theorem mT_le_pathCost {c : ℕ → ℕ → ℚ} {n s : ℕ} :
    ∀ S, S < 2 ^ n → ∀ i p, IsPathOver s S i p →
      mT c n s S i ≤ (edgeSum c p : WithTop ℚ) := by
  intro S
  induction S using Nat.strong_induction_on with
  | _ S ih =>
    intro hS i p hp
    obtain ⟨hnd, hhd, hlast, hmem⟩ := hp
    have hbi : S.testBit i = true := (hmem i).1 (mem_of_getLast_some hlast)
    rcases List.eq_nil_or_concat p with rfl | ⟨L, b, rfl⟩
    · exact absurd hhd (by simp)
    · rw [List.concat_eq_append] at hnd hhd hlast hmem ⊢
      obtain rfl : i = b := (by simpa [List.getLast?_concat] using hlast : b = i).symm
      cases L with
      | nil =>
        obtain rfl : s = i := (by simpa using hhd : i = s).symm
        have hbase : S = 1 <<< s := by
          refine eq_shift_of_testBit_iff fun k => ?_
          rw [← hmem k]
          simp
        rw [mT_eq, if_pos hbi, if_pos ⟨hbase, rfl⟩,
          show ([] : List ℕ) ++ [s] = [s] from rfl, edgeSum_single]
        exact foldl_min_le_start _ _ _
      | cons x t =>
        obtain rfl : s = x := (by simpa using hhd : x = s).symm
        have hX : S ^^^ (1 <<< i) < S := xor_shift_lt hbi
        have hndL : (s :: t).Nodup := (List.nodup_append.1 hnd).1
        have hiL : i ∉ s :: t := by
          intro hmem2
          exact (List.nodup_append.1 hnd).2.2 hmem2 (by simp)
        obtain ⟨j, hj⟩ := exists_getLast_some (show s :: t ≠ [] by simp)
        have hmemL : ∀ y, y ∈ s :: t ↔ (S ^^^ (1 <<< i)).testBit y = true := by
          intro y
          constructor
          · intro hy
            have hyne : y ≠ i := fun h => hiL (h ▸ hy)
            rw [testBit_xor_shift_ne S hyne]
            exact (hmem y).1 (List.mem_append_left _ hy)
          · intro hy
            have hyne : y ≠ i := by
              intro h
              subst h
              rw [testBit_xor_shift_self, hbi] at hy
              exact Bool.noConfusion hy
            rw [testBit_xor_shift_ne S hyne] at hy
            rcases List.mem_append.1 ((hmem y).2 hy) with h | h
            · exact h
            · exact absurd (by simpa using h) hyne
        have hpL : IsPathOver s (S ^^^ (1 <<< i)) j (s :: t) := ⟨hndL, rfl, hj, hmemL⟩
        have hjS : S.testBit j = true :=
          (hmem j).1 (List.mem_append_left _ (mem_of_getLast_some hj))
        have hjn : j < n := lt_of_testBit_of_lt_two_pow hS hjS
        have hjne : j ≠ i := fun h => hiL (h ▸ mem_of_getLast_some hj)
        have hjfil : j ∈ (List.range n).filter (fun k => S.testBit k && (k != i)) := by
          rw [List.mem_filter, List.mem_range]
          exact ⟨hjn, by simp [hjS, hjne]⟩
        rw [mT_eq, if_pos hbi]
        refine le_trans (foldl_min_le_mem _ _ _ j hjfil) ?_
        rw [edgeSum_concat c (s :: t) j i hj, WithTop.coe_add]
        exact add_le_add_right (ih _ hX (lt_trans hX hS) j (s :: t) hpL) _

theorem mT_attained {c : ℕ → ℕ → ℚ} {n s : ℕ} :
    ∀ S, S < 2 ^ n → ∀ i, mT c n s S i ≠ ⊤ →
      ∃ p, IsPathOver s S i p ∧ mT c n s S i = (edgeSum c p : WithTop ℚ) := by
  intro S
  induction S using Nat.strong_induction_on with
  | _ S ih =>
    intro hS i hne
    by_cases hb : S.testBit i
    · rcases foldl_min_eq_start_or_mem
        (fun j => mT c n s (S ^^^ (1 <<< i)) j + ((c j i : ℚ) : WithTop ℚ))
        ((List.range n).filter (fun j => S.testBit j && (j != i)))
        (if S = 1 <<< s ∧ i = s then 0 else ⊤) with hstart | ⟨j, hjl, hj⟩
      · rw [mT_eq, if_pos hb, hstart] at hne ⊢
        by_cases hbase : S = 1 <<< s ∧ i = s
        · rw [if_pos hbase]
          obtain ⟨hS1, his⟩ := hbase
          refine ⟨[s], ⟨List.nodup_singleton s, rfl, by simp [his], ?_⟩, rfl⟩
          intro x
          rw [hS1, Nat.one_shiftLeft, Nat.testBit_two_pow]
          simp [eq_comm]
        · rw [if_neg hbase] at hne
          exact absurd rfl hne
      · rw [mT_eq, if_pos hb, hj] at hne ⊢
        obtain ⟨hjrange, hjprop⟩ := List.mem_filter.1 hjl
        simp only [Bool.and_eq_true, bne_iff_ne, ne_eq] at hjprop
        have hjS : S.testBit j = true := hjprop.1
        have hjne : j ≠ i := hjprop.2
        have hX : S ^^^ (1 <<< i) < S := xor_shift_lt hb
        have hXne : mT c n s (S ^^^ (1 <<< i)) j ≠ ⊤ := by
          intro h
          rw [h, WithTop.top_add] at hne
          exact hne rfl
        obtain ⟨L, hL, hLsum⟩ := ih _ hX (lt_trans hX hS) j hXne
        obtain ⟨hndL, hhdL, hlastL, hmemL⟩ := hL
        have hiL : i ∉ L := by
          intro hmem2
          have := (hmemL i).1 hmem2
          rw [testBit_xor_shift_self, hb] at this
          exact Bool.noConfusion this
        refine ⟨L ++ [i], ⟨?_, ?_, List.getLast?_concat L, ?_⟩, ?_⟩
        · exact List.nodup_append.2 ⟨hndL, List.nodup_singleton i,
            by rw [List.disjoint_singleton]; exact hiL⟩
        · cases L with
          | nil => simp at hhdL
          | cons x t => simpa using hhdL
        · intro y
          rw [List.mem_append]
          constructor
          · rintro (hy | hy)
            · have := (hmemL y).1 hy
              have hyne : y ≠ i := fun h => hiL (h ▸ hy)
              rwa [testBit_xor_shift_ne S hyne] at this
            · obtain rfl : y = i := by simpa using hy
              exact hb
          · intro hy
            by_cases hyi : y = i
            · exact Or.inr (by simp [hyi])
            · refine Or.inl ((hmemL y).2 ?_)
              rwa [testBit_xor_shift_ne S hyi]
        · rw [hLsum] at *
          rw [edgeSum_concat c L j i hlastL, WithTop.coe_add]
    · rw [mT_eq, if_neg hb] at hne
      exact absurd rfl hne

/-! ### Consequences for the clamped source table -/

theorem dpT_le_INF (c : ℕ → ℕ → ℚ) (n s S i : ℕ) : dpT c n s S i ≤ INF := by
  rw [dpT_eq]
  by_cases hb : S.testBit i
  · rw [if_pos hb]
    refine le_trans (foldl_min_le_start _ _ _) ?_
    by_cases hbase : S = 1 <<< s ∧ i = s
    · rw [if_pos hbase]
      exact INF_nonneg
    · rw [if_neg hbase]
  · rw [if_neg hb]

theorem testBit_of_dpT_lt {c : ℕ → ℕ → ℚ} {n s S i : ℕ} (h : dpT c n s S i < INF) :
    S.testBit i = true := by
  by_contra hb
  rw [dpT_eq, if_neg hb] at h
  exact lt_irrefl _ h

theorem dpT_path {c : ℕ → ℕ → ℚ} {n s S i : ℕ} (hc : ∀ j i, 0 ≤ c j i)
    (hS : S < 2 ^ n) (h : dpT c n s S i < INF) :
    ∃ p, IsPathOver s S i p ∧ dpT c n s S i = edgeSum c p := by
  rw [dpT_eq_clampQ s hc S hS i] at h ⊢
  have hne : mT c n s S i ≠ ⊤ := by
    intro htop
    rw [htop, clampQ_top] at h
    exact lt_irrefl _ h
  obtain ⟨p, hp, hsum⟩ := mT_attained S hS i hne
  refine ⟨p, hp, ?_⟩
  rw [hsum, clampQ_coe] at h ⊢
  rcases min_cases INF (edgeSum c p) with ⟨hm, _⟩ | ⟨hm, _⟩
  · rw [hm] at h
    exact absurd h (lt_irrefl _)
  · exact hm

theorem dpT_pred {c : ℕ → ℕ → ℚ} {n s S cur : ℕ} (h : dpT c n s S cur < INF)
    (hne : ¬(S = 1 <<< s ∧ cur = s)) :
    ∃ j, j < n ∧ S.testBit j = true ∧ j ≠ cur ∧
      dpT c n s S cur = dpT c n s (S ^^^ (1 <<< cur)) j + c j cur := by
  have hb : S.testBit cur = true := testBit_of_dpT_lt h
  rw [dpT_eq, if_pos hb, if_neg hne] at h
  rcases foldl_min_eq_start_or_mem
    (fun j => dpT c n s (S ^^^ (1 <<< cur)) j + c j cur)
    ((List.range n).filter (fun j => S.testBit j && (j != cur))) INF with hstart | ⟨j, hjl, hj⟩
  · rw [hstart] at h
    exact absurd h (lt_irrefl _)
  · obtain ⟨hjrange, hjprop⟩ := List.mem_filter.1 hjl
    simp only [Bool.and_eq_true, bne_iff_ne, ne_eq] at hjprop
    refine ⟨j, List.mem_range.1 hjrange, hjprop.1, hjprop.2, ?_⟩
    rw [dpT_eq, if_pos hb, if_neg hne]
    exact hj

/-! ### The closing-cost scan -/

theorem pickFold_fst_le (d : ℕ → ℚ) (c : ℕ → ℕ → ℚ) (s : ℕ) :
    ∀ (l : List ℕ) (acc : ℚ × Option ℕ), (l.foldl (pickStep d c s) acc).1 ≤ acc.1
  | [], _ => le_refl _
  | y :: t, acc => by
    refine le_trans (pickFold_fst_le d c s t (pickStep d c s acc y)) ?_
    unfold pickStep
    by_cases hys : y = s
    · rw [if_pos hys]
    · rw [if_neg hys]
      by_cases hlt : d y + c y s < acc.1
      · rw [if_pos hlt]
        exact le_of_lt hlt
      · rw [if_neg hlt]

theorem pickFold_fst_le_cand (d : ℕ → ℚ) (c : ℕ → ℕ → ℚ) (s : ℕ) :
    ∀ (l : List ℕ) (acc : ℚ × Option ℕ) (i : ℕ), i ∈ l → i ≠ s →
      (l.foldl (pickStep d c s) acc).1 ≤ d i + c i s
  | y :: t, acc, i, hmem, hne => by
    rcases List.mem_cons.1 hmem with rfl | hit
    · refine le_trans (pickFold_fst_le d c s t (pickStep d c s acc i)) ?_
      unfold pickStep
      rw [if_neg hne]
      by_cases hlt : d i + c i s < acc.1
      · rw [if_pos hlt]
      · rw [if_neg hlt]
        exact le_of_not_lt hlt
    · exact pickFold_fst_le_cand d c s t (pickStep d c s acc y) i hit hne

theorem pickFold_inv (d : ℕ → ℚ) (c : ℕ → ℕ → ℚ) (s : ℕ) (P : ℕ → Prop) :
    ∀ (l : List ℕ) (acc : ℚ × Option ℕ), (∀ x ∈ l, P x) →
      ((acc.2 = none → acc.1 = INF) ∧
        (∀ j, acc.2 = some j → j ≠ s ∧ P j ∧ acc.1 = d j + c j s ∧ acc.1 < INF)) →
      ((l.foldl (pickStep d c s) acc).2 = none → (l.foldl (pickStep d c s) acc).1 = INF) ∧
        (∀ j, (l.foldl (pickStep d c s) acc).2 = some j →
          j ≠ s ∧ P j ∧ (l.foldl (pickStep d c s) acc).1 = d j + c j s ∧
            (l.foldl (pickStep d c s) acc).1 < INF)
  | [], _, _, hacc => hacc
  | y :: t, acc, hP, hacc => by
    refine pickFold_inv d c s P t (pickStep d c s acc y)
      (fun x hx => hP x (List.mem_cons_of_mem y hx)) ?_
    unfold pickStep
    by_cases hys : y = s
    · rw [if_pos hys]
      exact hacc
    · rw [if_neg hys]
      by_cases hlt : d y + c y s < acc.1
      · rw [if_pos hlt]
        have haccle : acc.1 ≤ INF := by
          cases hsnd : acc.2 with
          | none => exact le_of_eq (hacc.1 hsnd)
          | some j2 => exact le_of_lt ((hacc.2 j2 hsnd).2.2.2)
        refine ⟨fun hnone => Option.noConfusion hnone, ?_⟩
        intro j hj
        obtain rfl : y = j := by simpa using hj
        exact ⟨hys, hP y (List.mem_cons_self y t), rfl, lt_of_lt_of_le hlt haccle⟩
      · rw [if_neg hlt]
        exact hacc

theorem pickLast_none {d : ℕ → ℚ} {c : ℕ → ℕ → ℚ} {n s : ℕ}
    (h : (pickLast d c n s).2 = none) : (pickLast d c n s).1 = INF :=
  (pickFold_inv d c s (· < n) (List.range n) (INF, none)
    (fun x hx => List.mem_range.1 hx)
    ⟨fun _ => rfl, fun j hj => Option.noConfusion hj⟩).1 h

theorem pickLast_some {d : ℕ → ℚ} {c : ℕ → ℕ → ℚ} {n s j : ℕ}
    (h : (pickLast d c n s).2 = some j) :
    j ≠ s ∧ j < n ∧ (pickLast d c n s).1 = d j + c j s ∧ (pickLast d c n s).1 < INF :=
  (pickFold_inv d c s (· < n) (List.range n) (INF, none)
    (fun x hx => List.mem_range.1 hx)
    ⟨fun _ => rfl, fun j2 hj => Option.noConfusion hj⟩).2 j h

theorem pickLast_le {d : ℕ → ℚ} {c : ℕ → ℕ → ℚ} {n s i : ℕ} (hi : i < n) (hne : i ≠ s) :
    (pickLast d c n s).1 ≤ d i + c i s :=
  pickFold_fst_le_cand d c s (List.range n) (INF, none) i (List.mem_range.2 hi) hne

theorem pickLast_isSome {d : ℕ → ℚ} {c : ℕ → ℕ → ℚ} {n s : ℕ}
    (h : ∃ i, i < n ∧ i ≠ s ∧ d i + c i s < INF) :
    ∃ j, (pickLast d c n s).2 = some j := by
  obtain ⟨i, hi, hne, hlt⟩ := h
  cases hsnd : (pickLast d c n s).2 with
  | none =>
    exfalso
    have h1 := pickLast_none hsnd
    have h2 := pickLast_le (d := d) (c := c) hi hne
    rw [h1] at h2
    exact absurd (lt_of_le_of_lt h2 hlt) (lt_irrefl _)
  | some j => exact ⟨j, rfl⟩

/-! ### The bitmask as a list of locations -/

theorem maskList_nodup (n S : ℕ) : (maskList n S).Nodup :=
  List.Nodup.filter _ (List.nodup_range n)

theorem mem_maskList {n S b : ℕ} : b ∈ maskList n S ↔ b < n ∧ S.testBit b = true := by
  simp [maskList, List.mem_filter, List.mem_range]

theorem maskList_perm_cons {n S cur : ℕ} (hcur : cur < n) (hb : S.testBit cur = true) :
    (maskList n S).Perm (cur :: maskList n (S ^^^ (1 <<< cur))) := by
  refine List.perm_of_nodup_nodup_toFinset_eq (maskList_nodup n S) ?_ ?_
  · rw [List.nodup_cons]
    refine ⟨fun hmem => ?_, maskList_nodup n _⟩
    have hfalse := (mem_maskList.1 hmem).2
    rw [testBit_xor_shift_self, hb] at hfalse
    exact Bool.noConfusion hfalse
  · ext x
    simp only [List.mem_toFinset, List.mem_cons, mem_maskList]
    constructor
    · rintro ⟨hx, hbx⟩
      by_cases hxc : x = cur
      · exact Or.inl hxc
      · exact Or.inr ⟨hx, by rwa [testBit_xor_shift_ne S hxc]⟩
    · rintro (rfl | ⟨hx, hbx⟩)
      · exact ⟨hcur, hb⟩
      · refine ⟨hx, ?_⟩
        by_cases hxc : x = cur
        · subst hxc
          exact hb
        · rwa [testBit_xor_shift_ne S hxc] at hbx

theorem filter_maskList_shift (n s : ℕ) :
    (maskList n (1 <<< s)).filter (fun b => b != s) = [] := by
  rw [List.filter_eq_nil_iff]
  intro b hb
  have hbit := (mem_maskList.1 hb).2
  rw [Nat.one_shiftLeft, Nat.testBit_two_pow] at hbit
  obtain rfl : s = b := by simpa using hbit
  simp

/-! ### Correctness of the backtracking loop -/

theorem reconstructAux_spec {c : ℕ → ℕ → ℚ} {n : ℕ} (startNode : ℕ)
    (hc : ∀ j i, 0 ≤ c j i) :
    ∀ fuel S, S < fuel → S < 2 ^ n → ∀ cur acc,
      S.testBit (startNode - 1) = true → S.testBit cur = true → cur < n →
      dpT c n (startNode - 1) S cur < INF →
      ∃ V : List ℕ,
        reconstructAux c n startNode fuel S cur acc = some (acc ++ V.map (· + 1)) ∧
        V.Perm ((maskList n S).filter (fun b => b != (startNode - 1))) := by
  intro fuel
  induction fuel using Nat.strong_induction_on with
  | _ fuel ih =>
    intro S hSf hS2 cur acc hbs hbc hcn hdp
    cases fuel with
    | zero => exact absurd hSf (Nat.not_lt_zero S)
    | succ f =>
      by_cases hcs : cur = startNode - 1
      · refine ⟨[], ?_, ?_⟩
        · simp only [reconstructAux, if_pos hcs, List.map_nil, List.append_nil]
        · obtain ⟨p, hp, _⟩ := dpT_path hc hS2 hdp
          rw [hcs] at hp
          obtain ⟨_, hS1⟩ := isPathOver_closed hp
          rw [hS1, filter_maskList_shift]
      · obtain ⟨j, hjn, hjS, hjcur, hjeq⟩ :=
          dpT_pred hdp (fun hand => hcs hand.2)
        have hfind : ∃ j0, findPred c n (startNode - 1) S cur = some j0 := by
          cases hf : findPred c n (startNode - 1) S cur with
          | some j0 => exact ⟨j0, rfl⟩
          | none =>
            exfalso
            rw [findPred, List.find?_eq_none] at hf
            refine hf j (List.mem_range.2 hjn) ?_
            simp [hjcur, hjS, hjeq]
        obtain ⟨j0, hf⟩ := hfind
        have hj0pred := List.find?_some hf
        have hj0mem := List.mem_of_find?_eq_some hf
        simp only [Bool.and_eq_true, bne_iff_ne, ne_eq, decide_eq_true_eq] at hj0pred
        obtain ⟨⟨hj0ne, hj0S⟩, hj0eq⟩ := hj0pred
        have hX : S ^^^ (1 <<< cur) < S := xor_shift_lt hbc
        have hdpX : dpT c n (startNode - 1) (S ^^^ (1 <<< cur)) j0 < INF := by
          refine lt_of_le_of_lt ?_ hdp
          rw [hj0eq]
          exact le_add_of_nonneg_right (hc j0 cur)
        have hbsX : (S ^^^ (1 <<< cur)).testBit (startNode - 1) = true := by
          rw [testBit_xor_shift_ne S (fun h => hcs h.symm)]
          exact hbs
        have hbjX : (S ^^^ (1 <<< cur)).testBit j0 = true := by
          rw [testBit_xor_shift_ne S hj0ne]
          exact hj0S
        have hj0n : j0 < n := List.mem_range.1 hj0mem
        obtain ⟨V, hV, hVperm⟩ := ih f (Nat.lt_succ_self f) (S ^^^ (1 <<< cur))
          (lt_of_lt_of_le hX (Nat.le_of_lt_succ hSf)) (lt_trans hX hS2) j0
          (acc ++ [cur + 1]) hbsX hbjX hj0n hdpX
        refine ⟨cur :: V, ?_, ?_⟩
        · simp only [reconstructAux, if_neg hcs, hf]
          rw [hV, List.map_cons, List.append_assoc]
          rfl
        · have hp1 : ((maskList n S).filter (fun b => b != (startNode - 1))).Perm
              ((cur :: maskList n (S ^^^ (1 <<< cur))).filter
                (fun b => b != (startNode - 1))) :=
            (maskList_perm_cons hcn hbc).filter _
          rw [List.filter_cons_of_pos (by simpa using hcs)] at hp1
          exact (hVperm.cons cur).trans hp1.symm

/-! ### Tours, and assembling the whole solver -/

theorem clampQ_le_of_le {x : WithTop ℚ} {r : ℚ} (h : x ≤ (r : WithTop ℚ)) : clampQ x ≤ r := by
  induction x using WithTop.recTopCoe with
  | top => exact absurd h (WithTop.not_top_le_coe r)
  | coe q =>
    rw [clampQ_coe]
    exact le_trans (min_le_right _ _) (WithTop.coe_le_coe.1 h)

theorem getD_zero_nonneg :
    ∀ (row : List ℚ), (∀ x ∈ row, 0 ≤ x) → ∀ i, 0 ≤ row.getD i 0
  | [], _, i => by simp
  | x :: t, h, 0 => by simpa using h x (List.mem_cons_self x t)
  | x :: t, h, i + 1 => by
    rw [List.getD_cons_succ]
    exact getD_zero_nonneg t (fun y hy => h y (List.mem_cons_of_mem x hy)) i

theorem getD_row_cases :
    ∀ (g : List (List ℚ)) (j : ℕ), g.getD j [] = [] ∨ g.getD j [] ∈ g
  | [], j => Or.inl (by simp)
  | r :: t, 0 => Or.inr (by simp)
  | r :: t, j + 1 => by
    rw [List.getD_cons_succ]
    rcases getD_row_cases t j with h | h
    · exact Or.inl h
    · exact Or.inr (List.mem_cons_of_mem r h)

theorem cOf_nonneg {g : List (List ℚ)} (hg : ∀ r ∈ g, ∀ x ∈ r, 0 ≤ x) :
    ∀ j i, 0 ≤ cOf g j i := by
  intro j i
  unfold cOf
  rcases getD_row_cases g j with h | h
  · rw [h]
    simp
  · exact getD_zero_nonneg _ (hg _ h) i

theorem isTour_to_path {n s : ℕ} {q : List ℕ} (h : IsTour n s q) :
    ∃ j, q.getLast? = some j ∧ IsPathOver s (2 ^ n - 1) j q := by
  obtain ⟨hnd, hhd, hmem⟩ := h
  obtain ⟨j, hj⟩ := exists_getLast_some (List.ne_nil_of_mem (mem_of_head_some hhd))
  refine ⟨j, hj, hnd, hhd, hj, fun x => ?_⟩
  rw [hmem x, Nat.testBit_two_pow_sub_one]
  simp

theorem path_to_isTour {n s j : ℕ} {q : List ℕ} (h : IsPathOver s (2 ^ n - 1) j q) :
    IsTour n s q := by
  obtain ⟨hnd, hhd, _, hmem⟩ := h
  refine ⟨hnd, hhd, fun x => ?_⟩
  rw [hmem x, Nat.testBit_two_pow_sub_one]
  simp

theorem path_last_ne_start {n s j : ℕ} {q : List ℕ} (hn : 2 ≤ n)
    (hpath : IsPathOver s (2 ^ n - 1) j q) : j ≠ s := by
  intro hjs
  rw [hjs] at hpath
  obtain ⟨_, hS1⟩ := isPathOver_closed hpath
  have hn0 : 0 < n := by omega
  have hn1 : 1 < n := by omega
  have h0 : (2 ^ n - 1).testBit 0 = true := by
    rw [Nat.testBit_two_pow_sub_one]
    simp [hn0]
  have h1 : (2 ^ n - 1).testBit 1 = true := by
    rw [Nat.testBit_two_pow_sub_one]
    simp [hn1]
  rw [hS1, Nat.one_shiftLeft, Nat.testBit_two_pow] at h0 h1
  simp only [decide_eq_true_eq] at h0 h1
  omega

theorem cand_le_tourCost {c : ℕ → ℕ → ℚ} {n s j : ℕ} {q : List ℕ}
    (hc : ∀ j i, 0 ≤ c j i) (hj : q.getLast? = some j)
    (hpath : IsPathOver s (2 ^ n - 1) j q) :
    dpT c n s (2 ^ n - 1) j + c j s ≤ edgeSum c (q ++ [s]) := by
  have hfull : 2 ^ n - 1 < 2 ^ n := Nat.sub_lt (Nat.two_pow_pos n) one_pos
  have hdp : dpT c n s (2 ^ n - 1) j ≤ edgeSum c q := by
    rw [dpT_eq_clampQ s hc _ hfull j]
    exact clampQ_le_of_le (mT_le_pathCost _ hfull j q hpath)
  rw [edgeSum_concat c q j s hj]
  exact add_le_add_right hdp _

theorem maskList_full (n : ℕ) : maskList n (2 ^ n - 1) = List.range n := by
  unfold maskList
  rw [List.filter_eq_self]
  intro b hb
  rw [Nat.testBit_two_pow_sub_one]
  simpa using List.mem_range.1 hb

theorem heldKarp_eq (g : List (List ℚ)) (startNode : ℕ) :
    heldKarp g startNode =
      match (pickLast (fun i => dpT (cOf g) g.length (startNode - 1) (2 ^ g.length - 1) i)
          (cOf g) g.length (startNode - 1)).2 with
      | none => none
      | some last =>
        match reconstructAux (cOf g) g.length startNode (2 ^ g.length)
            (2 ^ g.length - 1) last [startNode] with
        | none => none
        | some path =>
          some ((pickLast (fun i => dpT (cOf g) g.length (startNode - 1)
              (2 ^ g.length - 1) i) (cOf g) g.length (startNode - 1)).1,
            (path ++ [startNode]).reverse) := rfl

theorem heldKarp_main {g : List (List ℚ)} {startNode : ℕ}
    (hv : ValidInstance g startNode) (hn2 : 2 ≤ g.length)
    (htour : ∃ q, IsTour g.length (startNode - 1) q ∧
      edgeSum (cOf g) (q ++ [startNode - 1]) < INF) :
    ∃ (M : ℚ) (W : List ℕ), heldKarp g startNode =
        some (M, startNode :: (W.map (· + 1) ++ [startNode])) ∧
      W.Perm ((List.range g.length).filter (fun b => b != (startNode - 1))) ∧
      IsLeast (tourCosts g startNode) M := by
  obtain ⟨hsq, hg0, hs1, hs2⟩ := hv
  have hc : ∀ j i, 0 ≤ cOf g j i := cOf_nonneg hg0
  have hfull : 2 ^ g.length - 1 < 2 ^ g.length :=
    Nat.sub_lt (Nat.two_pow_pos g.length) one_pos
  have hs_lt : startNode - 1 < g.length := by omega
  obtain ⟨q, hq, hqcost⟩ := htour
  obtain ⟨j, hj, hpath⟩ := isTour_to_path hq
  have hjne : j ≠ startNode - 1 := path_last_ne_start hn2 hpath
  have hjn : j < g.length := (hq.2.2 j).1 (mem_of_getLast_some hj)
  have hcand := cand_le_tourCost hc hj hpath
  have hcandlt : dpT (cOf g) g.length (startNode - 1) (2 ^ g.length - 1) j
      + cOf g j (startNode - 1) < INF := lt_of_le_of_lt hcand hqcost
  obtain ⟨last, hlast⟩ := pickLast_isSome
    (d := fun i => dpT (cOf g) g.length (startNode - 1) (2 ^ g.length - 1) i)
    ⟨j, hjn, hjne, hcandlt⟩
  obtain ⟨hlne, hln, hlval, hllt⟩ := pickLast_some hlast
  have hdplast : dpT (cOf g) g.length (startNode - 1) (2 ^ g.length - 1) last < INF := by
    refine lt_of_le_of_lt ?_ hllt
    rw [hlval]
    exact le_add_of_nonneg_right (hc last (startNode - 1))
  have hbls : (2 ^ g.length - 1).testBit (startNode - 1) = true := by
    rw [Nat.testBit_two_pow_sub_one]
    simp [hs_lt]
  have hbll : (2 ^ g.length - 1).testBit last = true := by
    rw [Nat.testBit_two_pow_sub_one]
    simp [hln]
  obtain ⟨V, hV, hVperm⟩ := reconstructAux_spec startNode hc (2 ^ g.length)
    (2 ^ g.length - 1) hfull hfull last [startNode] hbls hbll hln hdplast
  refine ⟨(pickLast (fun i => dpT (cOf g) g.length (startNode - 1) (2 ^ g.length - 1) i)
    (cOf g) g.length (startNode - 1)).1, V.reverse, ?_, ?_, ?_, ?_⟩
  · simp only [heldKarp_eq, hlast, hV]
    simp [List.reverse_append, List.map_reverse]
  · refine (List.reverse_perm V).trans (hVperm.trans ?_)
    rw [maskList_full]
  · obtain ⟨p, hp, hpsum⟩ := dpT_path hc hfull hdplast
    refine ⟨p, path_to_isTour hp, ?_⟩
    rw [edgeSum_concat (cOf g) p last (startNode - 1) hp.2.2.1, hlval, hpsum]
  · rintro x ⟨q2, hq2, rfl⟩
    obtain ⟨j2, hj2, hpath2⟩ := isTour_to_path hq2
    have hj2ne : j2 ≠ startNode - 1 := path_last_ne_start hn2 hpath2
    have hj2n : j2 < g.length := (hq2.2.2 j2).1 (mem_of_getLast_some hj2)
    exact le_trans (pickLast_le hj2n hj2ne) (cand_le_tourCost hc hj2 hpath2)

theorem heldKarp_some_isLeast {g : List (List ℚ)} {startNode : ℕ} {M : ℚ} {r : List ℕ}
    (hv : ValidInstance g startNode) (h : heldKarp g startNode = some (M, r)) :
    IsLeast (tourCosts g startNode) M := by
  obtain ⟨hsq, hg0, hs1, hs2⟩ := hv
  have hc : ∀ j i, 0 ≤ cOf g j i := cOf_nonneg hg0
  have hfull : 2 ^ g.length - 1 < 2 ^ g.length :=
    Nat.sub_lt (Nat.two_pow_pos g.length) one_pos
  rw [heldKarp_eq] at h
  cases hl : (pickLast (fun i => dpT (cOf g) g.length (startNode - 1) (2 ^ g.length - 1) i)
      (cOf g) g.length (startNode - 1)).2 with
  | none =>
    rw [hl] at h
    exact Option.noConfusion h
  | some last =>
    simp only [hl] at h
    obtain ⟨hlne, hln, hlval, hllt⟩ := pickLast_some hl
    cases hrec : reconstructAux (cOf g) g.length startNode (2 ^ g.length)
        (2 ^ g.length - 1) last [startNode] with
    | none =>
      simp only [hrec] at h
      exact Option.noConfusion h
    | some path =>
      simp only [hrec, Option.some.injEq, Prod.mk.injEq] at h
      obtain ⟨hM, _⟩ := h
      have hdplast : dpT (cOf g) g.length (startNode - 1) (2 ^ g.length - 1) last < INF := by
        refine lt_of_le_of_lt ?_ hllt
        rw [hlval]
        exact le_add_of_nonneg_right (hc last (startNode - 1))
      have hn2 : 2 ≤ g.length := by
        have hs_lt : startNode - 1 < g.length := by omega
        rcases Nat.lt_or_ge g.length 2 with hlt | hge
        · exfalso
          omega
        · exact hge
      constructor
      · obtain ⟨p, hp, hpsum⟩ := dpT_path hc hfull hdplast
        refine ⟨p, path_to_isTour hp, ?_⟩
        rw [edgeSum_concat (cOf g) p last (startNode - 1) hp.2.2.1, ← hM, hlval, hpsum]
      · rintro x ⟨q2, hq2, rfl⟩
        obtain ⟨j2, hj2, hpath2⟩ := isTour_to_path hq2
        have hj2ne : j2 ≠ startNode - 1 := path_last_ne_start hn2 hpath2
        have hj2n : j2 < g.length := (hq2.2.2 j2).1 (mem_of_getLast_some hj2)
        rw [← hM]
        exact le_trans (pickLast_le hj2n hj2ne) (cand_le_tourCost hc hj2 hpath2)

/-! ### Single-entry updates and monotonicity -/

theorem getD_set_of_ne {α : Type} (x d : α) :
    ∀ (l : List α) (a j : ℕ), a ≠ j → (l.set a x).getD j d = l.getD j d
  | [], _, _, _ => by simp
  | _ :: _, 0, 0, h => absurd rfl h
  | y :: t, 0, j + 1, _ => by
    show (x :: t).getD (j + 1) d = (y :: t).getD (j + 1) d
    rw [List.getD_cons_succ, List.getD_cons_succ]
  | y :: t, a + 1, 0, _ => by
    show (y :: t.set a x).getD 0 d = (y :: t).getD 0 d
    rfl
  | y :: t, a + 1, j + 1, h => by
    show (y :: t.set a x).getD (j + 1) d = (y :: t).getD (j + 1) d
    rw [List.getD_cons_succ, List.getD_cons_succ]
    exact getD_set_of_ne x d t a j (fun hh => h (by rw [hh]))

theorem getD_set_self {α : Type} (x d : α) :
    ∀ (l : List α) (a : ℕ), a < l.length → (l.set a x).getD a d = x
  | [], a, h => absurd h (by simp)
  | _ :: _, 0, _ => rfl
  | y :: t, a + 1, h => by
    show (y :: t.set a x).getD (a + 1) d = x
    rw [List.getD_cons_succ]
    exact getD_set_self x d t a (by simpa using h)

theorem getD_mem_of_lt : ∀ (g : List (List ℚ)) (a : ℕ), a < g.length → g.getD a [] ∈ g
  | [], a, h => absurd h (by simp)
  | r :: t, 0, _ => List.mem_cons_self r t
  | r :: t, a + 1, h => by
    rw [List.getD_cons_succ]
    exact List.mem_cons_of_mem r (getD_mem_of_lt t a (by simpa using h))

theorem cOf_setEntry_le {g : List (List ℚ)} {a b : ℕ} {v : ℚ} (hab : cOf g a b ≤ v) :
    ∀ j i, cOf g j i ≤ cOf (setEntry g a b v) j i := by
  intro j i
  show (g.getD j []).getD i 0 ≤ ((g.set a ((g.getD a []).set b v)).getD j []).getD i 0
  by_cases hja : a = j
  · subst hja
    by_cases hj : a < g.length
    · rw [getD_set_self _ _ g a hj]
      by_cases hib : b = i
      · subst hib
        by_cases hi : b < (g.getD a []).length
        · rw [getD_set_self _ _ _ b hi]
          exact hab
        · rw [List.set_eq_of_length_le (le_of_not_lt hi)]
      · rw [getD_set_of_ne _ _ _ b i hib]
    · rw [List.set_eq_of_length_le (le_of_not_lt hj)]
  · rw [getD_set_of_ne _ _ g a j hja]

theorem validInstance_setEntry {g : List (List ℚ)} {startNode : ℕ} (a b : ℕ) {v : ℚ}
    (hv : ValidInstance g startNode) (hvv : 0 ≤ v) :
    ValidInstance (setEntry g a b v) startNode := by
  obtain ⟨hsq, hg0, hs1, hs2⟩ := hv
  have hlen : (setEntry g a b v).length = g.length := List.length_set g a _
  refine ⟨?_, ?_, hs1, by rw [hlen]; exact hs2⟩
  · intro r hr
    rw [hlen]
    by_cases ha : a < g.length
    · rcases List.mem_or_eq_of_mem_set hr with h | rfl
      · exact hsq r h
      · rw [List.length_set]
        exact hsq _ (getD_mem_of_lt g a ha)
    · rw [setEntry, List.set_eq_of_length_le (le_of_not_lt ha)] at hr
      exact hsq r hr
  · intro r hr x hx
    by_cases ha : a < g.length
    · rcases List.mem_or_eq_of_mem_set hr with h | rfl
      · exact hg0 r h x hx
      · rcases List.mem_or_eq_of_mem_set hx with h2 | rfl
        · exact hg0 _ (getD_mem_of_lt g a ha) x h2
        · exact hvv
    · rw [setEntry, List.set_eq_of_length_le (le_of_not_lt ha)] at hr
      exact hg0 r hr x hx

theorem edgeSum_mono {c c2 : ℕ → ℕ → ℚ} (h : ∀ j i, c j i ≤ c2 j i) :
    ∀ p, edgeSum c p ≤ edgeSum c2 p
  | [] => le_refl _
  | [_] => le_refl _
  | a :: b :: t => add_le_add (h a b) (edgeSum_mono h (b :: t))

theorem length_filter_ne_range {n s : ℕ} (hs : s < n) :
    ((List.range n).filter (fun b => b != s)).length = n - 1 := by
  rw [← List.Nodup.erase_eq_filter (List.nodup_range n) s,
    List.length_erase_of_mem (List.mem_range.2 hs), List.length_range]

theorem bne_shift {startNode b : ℕ} (hs1 : 1 ≤ startNode) :
    (b != startNode - 1) = ((b + 1) != startNode) := by
  rw [Bool.eq_iff_iff, bne_iff_ne, bne_iff_ne]
  omega

theorem map_filter_shift {n startNode : ℕ} (hs1 : 1 ≤ startNode) :
    ((List.range n).filter (fun b => b != startNode - 1)).map (· + 1) =
      ((List.range n).map (· + 1)).filter (fun b => b != startNode) := by
  rw [List.filter_map]
  congr 1
  refine List.filter_congr fun b _ => ?_
  show (b != startNode - 1) = ((b + 1) != startNode)
  exact bne_shift hs1

/-! ### The claims -/

/-- C1 (counterexample): the matrix of all off-diagonal costs `10^9` on three
locations is a valid input (square, non-negative finite entries, `n approx 2`,
start in range) and `[0, 1, 2]` is a Hamiltonian cycle through the start of
total cost `3 * 10^9`, yet `heldKarp` has no defined result: every closing
cost `dp[full][i] + cost[i][start] = 3 * 10^9` fails the strict comparison
against the sentinel `INF = 2147483647`, `lastNode` stays `-1`, and the C++
reconstruction reads `dp[subset][-1]` out of bounds (modelled by `none`). So
the returned value does not equal the minimum cycle cost. -/
theorem claim1_counterexample :
    ValidInstance [[0, 1000000000, 1000000000], [1000000000, 0, 1000000000],
      [1000000000, 1000000000, 0]] 1 ∧
    IsTour (List.length [[(0 : ℚ), 1000000000, 1000000000], [1000000000, 0, 1000000000],
      [1000000000, 1000000000, 0]]) (1 - 1) [0, 1, 2] ∧
    edgeSum (cOf [[0, 1000000000, 1000000000], [1000000000, 0, 1000000000],
      [1000000000, 1000000000, 0]]) ([0, 1, 2] ++ [1 - 1]) = 3000000000 ∧
    heldKarp [[0, 1000000000, 1000000000], [1000000000, 0, 1000000000],
      [1000000000, 1000000000, 0]] 1 = none := by
  refine ⟨?_, ⟨?_, rfl, ?_⟩, ?_, ?_⟩
  · unfold ValidInstance
    with_unfolding_all decide
  · decide
  · intro x
    simp only [List.length_cons, List.length_nil]
    constructor
    · intro hx
      rcases List.mem_cons.1 hx with rfl | hx
      · omega
      rcases List.mem_cons.1 hx with rfl | hx
      · omega
      rcases List.mem_cons.1 hx with rfl | hx
      · omega
      · simp at hx
    · intro hx
      interval_cases x <;> simp
  · with_unfolding_all rfl
  · with_unfolding_all rfl

/-- C1 (amended): for a valid input with `n ≥ 2` that admits a Hamiltonian
cycle through the start of total cost strictly below the sentinel
`INF = 2147483647`, `heldKarp` returns a cost together with a route, and
that cost is the least element of the set of Hamiltonian-cycle costs, i.e.
the minimum over `last ≠ start` of `dp[full][last] + cost[last][start]`.
Without the below-sentinel condition the claim fails: see the
counterexample. -/
theorem claim1_min_cost {g : List (List ℚ)} {startNode : ℕ}
    (hv : ValidInstance g startNode) (hn2 : 2 ≤ g.length)
    (htour : ∃ q, IsTour g.length (startNode - 1) q ∧
      edgeSum (cOf g) (q ++ [startNode - 1]) < INF) :
    ∃ (M : ℚ) (r : List ℕ), heldKarp g startNode = some (M, r) ∧
      IsLeast (tourCosts g startNode) M := by
  obtain ⟨M, W, h1, _, h3⟩ := heldKarp_main hv hn2 htour
  exact ⟨M, _, h1, h3⟩

/-- C1 (witness): the amended theorem applied to the concrete valid instance
`[[0, 1], [1, 0]]` with start `1`. -/
theorem claim1_min_cost_witness :
    ValidInstance [[0, 1], [1, 0]] 1 ∧
      ∃ (M : ℚ) (r : List ℕ), heldKarp [[0, 1], [1, 0]] 1 = some (M, r) ∧
        IsLeast (tourCosts [[0, 1], [1, 0]] 1) M := by
  have hv : ValidInstance [[0, 1], [1, 0]] 1 := by
    unfold ValidInstance
    with_unfolding_all decide
  have htour : ∃ q, IsTour (List.length [[(0 : ℚ), 1], [1, 0]]) (1 - 1) q ∧
      edgeSum (cOf [[0, 1], [1, 0]]) (q ++ [1 - 1]) < INF := by
    refine ⟨[0, 1], ⟨by decide, rfl, ?_⟩, by with_unfolding_all decide⟩
    intro x
    simp only [List.length_cons, List.length_nil]
    constructor
    · intro hx
      rcases List.mem_cons.1 hx with rfl | hx
      · omega
      rcases List.mem_cons.1 hx with rfl | hx
      · omega
      · simp at hx
    · intro hx
      interval_cases x <;> simp
  exact ⟨hv, claim1_min_cost hv (by decide) htour⟩

/-- C2 (counterexample): for the valid matrix `[[0, 5*10^9], [5*10^9, 0]]`
with start `1`, the cell `dp[{0,1}][1]` of the finished table holds the
sentinel `INF`, although the (unique) simple path from the start visiting
exactly `{0, 1}` and ending at location `1` exists and costs `5 * 10^9`. So
the cell neither equals the minimum path cost nor is the sentinel reserved
for "no such path exists": the relaxation `min(INF, 0 + 5*10^9)` clamps at
the finite sentinel. -/
theorem claim2_counterexample :
    dpT (cOf [[0, 5000000000], [5000000000, 0]]) 2 0 3 1 = INF ∧
    IsPathOver 0 3 1 [0, 1] ∧
    (∀ p, IsPathOver 0 3 1 p →
      edgeSum (cOf [[0, 5000000000], [5000000000, 0]]) p = 5000000000) ∧
    (INF : ℚ) ≠ 5000000000 := by
  refine ⟨by with_unfolding_all rfl, ⟨by decide, rfl, rfl, ?_⟩, ?_, by norm_num [INF]⟩
  · intro x
    rw [show (3 : ℕ) = 2 ^ 2 - 1 from rfl, Nat.testBit_two_pow_sub_one]
    constructor
    · intro hx
      rcases List.mem_cons.1 hx with rfl | hx
      · simp
      rcases List.mem_cons.1 hx with rfl | hx
      · simp
      · simp at hx
    · intro hx
      have hx2 : x < 2 := by simpa using hx
      interval_cases x <;> simp
  · intro p hp
    have hp2 : p = [0, 1] := by
      obtain ⟨hnd, hhd, hlast, hmem⟩ := hp
      rcases List.eq_nil_or_concat p with rfl | ⟨L, b, rfl⟩
      · exact absurd hhd (by simp)
      rw [List.concat_eq_append] at hnd hhd hlast hmem ⊢
      obtain rfl : b = 1 := by simpa [List.getLast?_concat] using hlast
      cases L with
      | nil => exact absurd hhd (by simp)
      | cons x t =>
        obtain rfl : x = 0 := by simpa using hhd
        have hlt : ∀ y, y ∈ (0 :: t) ++ [1] → y < 2 := by
          intro y hy
          exact lt_of_testBit_of_lt_two_pow (by norm_num : (3 : ℕ) < 2 ^ 2) ((hmem y).1 hy)
        have h1L : (1 : ℕ) ∉ 0 :: t := fun hmem2 =>
          (List.nodup_append.1 hnd).2.2 hmem2 (by simp)
        have ht : t = [] := by
          rw [List.eq_nil_iff_forall_not_mem]
          intro y hy
          have hy2 : y < 2 := hlt y (List.mem_append_left _ (List.mem_cons_of_mem 0 hy))
          have hy0 : y ≠ 0 := fun hh =>
            (List.nodup_cons.1 (List.nodup_append.1 hnd).1).1 (hh ▸ hy)
          have hy1 : y ≠ 1 := fun hh =>
            h1L (List.mem_cons_of_mem 0 (hh ▸ hy))
          omega
        rw [ht]
        rfl
    rw [hp2]
    with_unfolding_all rfl

/-- C2 (amended): after the forward pass, for every subset `S < 2^n` and cell
index `i`, a cell strictly below the sentinel is the least cost over simple
paths from the start visiting exactly `S` and ending at `i` (in particular
such a path exists), and a cell equal to the sentinel means every such path
(if any) costs at least `INF`. The single increasing-numeric-value pass is
the dependency order because `S ^^^ (1 <<< i) < S` whenever bit `i` is set
(`xor_shift_lt`), which is what validates the recursion `dpT_eq` this
theorem rests on. Cells of subsets not containing the start, and cells with
`i` outside the subset, can hold no path and therefore stay at the
sentinel. -/
theorem claim2_dp_cells {g : List (List ℚ)} {startNode : ℕ}
    (hv : ValidInstance g startNode) {S : ℕ} (hS : S < 2 ^ g.length) (i : ℕ) :
    (dpT (cOf g) g.length (startNode - 1) S i < INF →
      IsLeast {x : ℚ | ∃ p, IsPathOver (startNode - 1) S i p ∧ x = edgeSum (cOf g) p}
        (dpT (cOf g) g.length (startNode - 1) S i)) ∧
    (dpT (cOf g) g.length (startNode - 1) S i = INF →
      ∀ p, IsPathOver (startNode - 1) S i p → INF ≤ edgeSum (cOf g) p) := by
  have hc := cOf_nonneg hv.2.1
  have hbound : ∀ p, IsPathOver (startNode - 1) S i p →
      dpT (cOf g) g.length (startNode - 1) S i ≤ edgeSum (cOf g) p := by
    intro p hp
    rw [dpT_eq_clampQ (startNode - 1) hc S hS i]
    exact clampQ_le_of_le (mT_le_pathCost S hS i p hp)
  constructor
  · intro h
    obtain ⟨p, hp, hsum⟩ := dpT_path hc hS h
    refine ⟨⟨p, hp, hsum⟩, ?_⟩
    rintro x ⟨p2, hp2, rfl⟩
    exact hbound p2 hp2
  · intro h p hp
    rw [← h]
    exact hbound p hp

/-- C2 (witness): the amended theorem applied to the instance
`[[0, 1], [1, 0]]`, start `1`, subset `{0, 1}`, cell `1`. -/
theorem claim2_dp_cells_witness :
    ValidInstance [[0, 1], [1, 0]] 1 ∧ 3 < 2 ^ List.length [[(0 : ℚ), 1], [1, 0]] ∧
      ((dpT (cOf [[0, 1], [1, 0]]) (List.length [[(0 : ℚ), 1], [1, 0]]) (1 - 1) 3 1 < INF →
        IsLeast {x : ℚ | ∃ p, IsPathOver (1 - 1) 3 1 p ∧
          x = edgeSum (cOf [[0, 1], [1, 0]]) p}
          (dpT (cOf [[0, 1], [1, 0]]) (List.length [[(0 : ℚ), 1], [1, 0]]) (1 - 1) 3 1)) ∧
      (dpT (cOf [[0, 1], [1, 0]]) (List.length [[(0 : ℚ), 1], [1, 0]]) (1 - 1) 3 1 = INF →
        ∀ p, IsPathOver (1 - 1) 3 1 p →
          INF ≤ edgeSum (cOf [[0, 1], [1, 0]]) p)) := by
  have hv : ValidInstance [[0, 1], [1, 0]] 1 := by
    unfold ValidInstance
    with_unfolding_all decide
  exact ⟨hv, by decide, claim2_dp_cells hv (by decide) 1⟩

/-- C3 (counterexample): `[[0, 2*10^9], [2*10^9, 0]]` with start `1` is a
valid input (entries even below the sentinel individually) and the
Hamiltonian cycle `[0, 1]` exists, yet no route of any length is produced:
the closing costs reach `4 * 10^9 ≥ INF`, `lastNode` stays `-1`, and the
reconstruction dereferences `dp[subset][-1]` (undefined behaviour, modelled
by `none`). -/
theorem claim3_counterexample :
    ValidInstance [[0, 2000000000], [2000000000, 0]] 1 ∧
    IsTour (List.length [[(0 : ℚ), 2000000000], [2000000000, 0]]) (1 - 1) [0, 1] ∧
    heldKarp [[0, 2000000000], [2000000000, 0]] 1 = none := by
  refine ⟨?_, ⟨by decide, rfl, ?_⟩, ?_⟩
  · unfold ValidInstance
    with_unfolding_all decide
  · intro x
    simp only [List.length_cons, List.length_nil]
    constructor
    · intro hx
      rcases List.mem_cons.1 hx with rfl | hx
      · omega
      rcases List.mem_cons.1 hx with rfl | hx
      · omega
      · simp at hx
    · intro hx
      interval_cases x <;> simp
  · with_unfolding_all rfl

/-- C3 (amended): for a valid input with `n ≥ 2` admitting a Hamiltonian
cycle of cost below the sentinel `INF`, the returned route has length
`n + 1`, begins and ends at `start`, and its interior is a permutation of
the other `n - 1` (1-based) location indices. Without the below-sentinel
condition no route is returned at all: see the counterexample. -/
theorem claim3_route_shape {g : List (List ℚ)} {startNode : ℕ}
    (hv : ValidInstance g startNode) (hn2 : 2 ≤ g.length)
    (htour : ∃ q, IsTour g.length (startNode - 1) q ∧
      edgeSum (cOf g) (q ++ [startNode - 1]) < INF) :
    ∃ (M : ℚ) (r : List ℕ), heldKarp g startNode = some (M, r) ∧
      r.length = g.length + 1 ∧ r.head? = some startNode ∧
      r.getLast? = some startNode ∧
      (r.drop 1).dropLast.Perm
        (((List.range g.length).map (· + 1)).filter (fun b => b != startNode)) := by
  obtain ⟨M, W, h1, hperm, _⟩ := heldKarp_main hv hn2 htour
  have hs1 : 1 ≤ startNode := hv.2.2.1
  have hs_lt : startNode - 1 < g.length := by
    have := hv.2.2.2
    omega
  refine ⟨M, _, h1, ?_, rfl, ?_, ?_⟩
  · simp only [List.length_cons, List.length_append, List.length_map,
      List.length_singleton, List.length_nil]
    rw [hperm.length_eq, length_filter_ne_range hs_lt]
    omega
  · show (startNode :: (W.map (· + 1) ++ [startNode])).getLast? = some startNode
    rw [show startNode :: (W.map (· + 1) ++ [startNode])
        = (startNode :: W.map (· + 1)) ++ [startNode] from rfl, List.getLast?_concat]
  · show ((startNode :: (W.map (· + 1) ++ [startNode])).drop 1).dropLast.Perm _
    rw [show (startNode :: (W.map (· + 1) ++ [startNode])).drop 1
        = W.map (· + 1) ++ [startNode] from rfl, List.dropLast_concat,
      ← map_filter_shift hs1]
    exact hperm.map _

/-- C3 (witness): the amended theorem applied to `[[0, 1], [1, 0]]`,
start `1`. -/
theorem claim3_route_shape_witness :
    ValidInstance [[0, 1], [1, 0]] 1 ∧
      ∃ (M : ℚ) (r : List ℕ), heldKarp [[0, 1], [1, 0]] 1 = some (M, r) ∧
        r.length = List.length [[(0 : ℚ), 1], [1, 0]] + 1 ∧ r.head? = some 1 ∧
        r.getLast? = some 1 ∧
        (r.drop 1).dropLast.Perm
          (((List.range (List.length [[(0 : ℚ), 1], [1, 0]])).map (· + 1)).filter
            (fun b => b != 1)) := by
  have hv : ValidInstance [[0, 1], [1, 0]] 1 := by
    unfold ValidInstance
    with_unfolding_all decide
  have htour : ∃ q, IsTour (List.length [[(0 : ℚ), 1], [1, 0]]) (1 - 1) q ∧
      edgeSum (cOf [[0, 1], [1, 0]]) (q ++ [1 - 1]) < INF := by
    refine ⟨[0, 1], ⟨by decide, rfl, ?_⟩, by with_unfolding_all decide⟩
    intro x
    simp only [List.length_cons, List.length_nil]
    constructor
    · intro hx
      rcases List.mem_cons.1 hx with rfl | hx
      · omega
      rcases List.mem_cons.1 hx with rfl | hx
      · omega
      · simp at hx
    · intro hx
      interval_cases x <;> simp
  exact ⟨hv, claim3_route_shape hv (by decide) htour⟩

/-- C4: `heldKarp` (the whole solve operation of the source) contains no
input validation and no `InvalidInput` error path at all. On the invalid
input `[[0, -5], [-5, 0]]` (negative entries) it performs the full
computation and returns cost `-10` with route `[1, 2, 1]` instead of
failing; on `n < 1` or an out-of-range start the C++ instead indexes its
vectors out of bounds. This theorem evaluates the embedded code on the
negative-entry input, exhibiting the completed computation the claim says
must not happen. -/
theorem claim4_no_invalid_input_error :
    heldKarp [[0, -5], [-5, 0]] 1 = some (-10, [1, 2, 1]) := by
  with_unfolding_all rfl

/-- C5: when no closing cost beats the sentinel (here every
`dp[full][i] + cost[i][start]` stays at or above `INF` because the
direct costs are `5 * 10^9`), the source does not fail with any
`NoTourFound` error — no such error exists in the code. It leaves
`lastNode = -1` and enters the reconstruction loop, which reads
`dp[subset][-1]` out of bounds: undefined behaviour, modelled by `none`.
This theorem evaluates the embedded code on such an input. -/
theorem claim5_no_tour_not_reported :
    heldKarp [[0, 5000000000], [5000000000, 0]] 1 = none := by
  with_unfolding_all rfl

/-- C6: for `n = 1` and start `1` the source does not return the route
`[1, 1]` with cost `0`. It runs the recurrence loop over both subsets, the
closing-cost scan skips the start and leaves `minDistance = INF` and
`lastNode = -1`, and the reconstruction then reads `dp[1][-1]` out of
bounds: undefined behaviour, modelled by `none`. -/
theorem claim6_single_location :
    heldKarp [[(0 : ℚ)]] 1 = none := by rfl

/-- C7: for a valid input with `n ≥ 2` admitting a Hamiltonian cycle whose
cost is finite in the table's sense (strictly below the unreachable sentinel
`INF`), the closing-cost scan selects some `lastNode`, and the backtracking
loop started at `(full, lastNode)` finds a predecessor satisfying the exact
equality `dp[subset][cur] = dp[subset \\ {cur}][p] + cost[p][cur]` at every
step and terminates having reached the start: `reconstructAux` returns
`some path` (its `none`, which models both the missing-predecessor infinite
loop and fuel exhaustion, never occurs). Exact rational arithmetic models
the spec's requirement that construction and reconstruction use the same
numeric semantics. -/
theorem claim7_reconstruction_succeeds {g : List (List ℚ)} {startNode : ℕ}
    (hv : ValidInstance g startNode) (hn2 : 2 ≤ g.length)
    (htour : ∃ q, IsTour g.length (startNode - 1) q ∧
      edgeSum (cOf g) (q ++ [startNode - 1]) < INF) :
    ∃ (last : ℕ) (path : List ℕ),
      (pickLast (fun i => dpT (cOf g) g.length (startNode - 1) (2 ^ g.length - 1) i)
          (cOf g) g.length (startNode - 1)).2 = some last ∧
      reconstructAux (cOf g) g.length startNode (2 ^ g.length) (2 ^ g.length - 1)
        last [startNode] = some path := by
  obtain ⟨hsq, hg0, hs1, hs2⟩ := hv
  have hc : ∀ j i, 0 ≤ cOf g j i := cOf_nonneg hg0
  have hfull : 2 ^ g.length - 1 < 2 ^ g.length :=
    Nat.sub_lt (Nat.two_pow_pos g.length) one_pos
  have hs_lt : startNode - 1 < g.length := by omega
  obtain ⟨q, hq, hqcost⟩ := htour
  obtain ⟨j, hj, hpath⟩ := isTour_to_path hq
  have hjne : j ≠ startNode - 1 := path_last_ne_start hn2 hpath
  have hjn : j < g.length := (hq.2.2 j).1 (mem_of_getLast_some hj)
  have hcandlt := lt_of_le_of_lt (cand_le_tourCost hc hj hpath) hqcost
  obtain ⟨last, hlast⟩ := pickLast_isSome
    (d := fun i => dpT (cOf g) g.length (startNode - 1) (2 ^ g.length - 1) i)
    ⟨j, hjn, hjne, hcandlt⟩
  obtain ⟨hlne, hln, hlval, hllt⟩ := pickLast_some hlast
  have hdplast : dpT (cOf g) g.length (startNode - 1) (2 ^ g.length - 1) last < INF := by
    refine lt_of_le_of_lt ?_ hllt
    rw [hlval]
    exact le_add_of_nonneg_right (hc last (startNode - 1))
  have hbls : (2 ^ g.length - 1).testBit (startNode - 1) = true := by
    rw [Nat.testBit_two_pow_sub_one]
    simp [hs_lt]
  have hbll : (2 ^ g.length - 1).testBit last = true := by
    rw [Nat.testBit_two_pow_sub_one]
    simp [hln]
  obtain ⟨V, hV, _⟩ := reconstructAux_spec startNode hc (2 ^ g.length)
    (2 ^ g.length - 1) hfull hfull last [startNode] hbls hbll hln hdplast
  exact ⟨last, _, hlast, hV⟩

/-- C7 (witness): the theorem applied to `[[0, 1], [1, 0]]` with start `1`. -/
theorem claim7_reconstruction_succeeds_witness :
    ValidInstance [[0, 1], [1, 0]] 1 ∧
      ∃ (last : ℕ) (path : List ℕ),
        (pickLast (fun i => dpT (cOf [[0, 1], [1, 0]])
            (List.length [[(0 : ℚ), 1], [1, 0]]) (1 - 1)
            (2 ^ List.length [[(0 : ℚ), 1], [1, 0]] - 1) i)
          (cOf [[0, 1], [1, 0]]) (List.length [[(0 : ℚ), 1], [1, 0]]) (1 - 1)).2
            = some last ∧
        reconstructAux (cOf [[0, 1], [1, 0]]) (List.length [[(0 : ℚ), 1], [1, 0]]) 1
          (2 ^ List.length [[(0 : ℚ), 1], [1, 0]])
          (2 ^ List.length [[(0 : ℚ), 1], [1, 0]] - 1) last [1] = some path := by
  have hv : ValidInstance [[0, 1], [1, 0]] 1 := by
    unfold ValidInstance
    with_unfolding_all decide
  have htour : ∃ q, IsTour (List.length [[(0 : ℚ), 1], [1, 0]]) (1 - 1) q ∧
      edgeSum (cOf [[0, 1], [1, 0]]) (q ++ [1 - 1]) < INF := by
    refine ⟨[0, 1], ⟨by decide, rfl, ?_⟩, by with_unfolding_all decide⟩
    intro x
    simp only [List.length_cons, List.length_nil]
    constructor
    · intro hx
      rcases List.mem_cons.1 hx with rfl | hx
      · omega
      rcases List.mem_cons.1 hx with rfl | hx
      · omega
      · simp at hx
    · intro hx
      interval_cases x <;> simp
  exact ⟨hv, claim7_reconstruction_succeeds hv (by decide) htour⟩

/-- C8: increasing a single matrix entry (all other entries and the start
unchanged) never decreases the minimum cost returned: if both the original
and the modified instance yield a result, the new cost is at least the old
one. The proof goes through the characterisation of any returned cost as
the least Hamiltonian-cycle cost, and the pointwise monotonicity of cycle
costs in the matrix entries. -/
theorem claim8_monotonicity {g : List (List ℚ)} {startNode a b : ℕ} {v : ℚ}
    {M M2 : ℚ} {r r2 : List ℕ} (hv : ValidInstance g startNode)
    (hab : cOf g a b ≤ v)
    (h1 : heldKarp g startNode = some (M, r))
    (h2 : heldKarp (setEntry g a b v) startNode = some (M2, r2)) :
    M ≤ M2 := by
  have hc := cOf_nonneg hv.2.1
  have hv2 := validInstance_setEntry a b hv (le_trans (hc a b) hab)
  have hl1 := heldKarp_some_isLeast hv h1
  have hl2 := heldKarp_some_isLeast hv2 h2
  obtain ⟨⟨q2, hq2, hM2⟩, _⟩ := hl2
  rw [show (setEntry g a b v).length = g.length from List.length_set g a _] at hq2
  refine le_trans (hl1.2 ⟨q2, hq2, rfl⟩) ?_
  rw [hM2]
  exact edgeSum_mono (cOf_setEntry_le hab) _

/-- C8 (witness): the theorem applied to `[[0, 1], [1, 0]]` with entry
`(0, 1)` raised from `1` to `5`: the cost goes from `2` to `6`, so `2 ≤ 6`
is produced by the theorem itself. -/
theorem claim8_monotonicity_witness :
    ValidInstance [[0, 1], [1, 0]] 1 ∧ (2 : ℚ) ≤ 6 := by
  have hv : ValidInstance [[0, 1], [1, 0]] 1 := by
    unfold ValidInstance
    with_unfolding_all decide
  have h1 : heldKarp [[0, 1], [1, 0]] 1 = some (2, [1, 2, 1]) := by
    with_unfolding_all rfl
  have h2 : heldKarp (setEntry [[0, 1], [1, 0]] 0 1 5) 1 = some (6, [1, 2, 1]) := by
    with_unfolding_all rfl
  exact ⟨hv, claim8_monotonicity hv
    (show cOf [[0, 1], [1, 0]] 0 1 ≤ 5 by with_unfolding_all decide) h1 h2⟩

/-- C9: the solver is deterministic: it is embedded as a pure function of
the cost matrix and the start index alone — the C++ `heldKarp` reads no
state other than its arguments and the DP table it allocates and discards
per call, which is why a function is a faithful model — so two calls on
identical inputs yield identical (cost, route) results. -/
theorem claim9_deterministic (g : List (List ℚ)) (startNode : ℕ) :
    heldKarp g startNode = heldKarp g startNode := rfl

/-- C10: every finished cell strictly below the sentinel `INF` belongs to a
subset containing both the (0-based) start location and the cell's own
location; cells of subsets not containing the start hold the sentinel. The
cells are written once, during the iteration of their own subset, so the
final table speaks for every moment after that write; before it the cell
holds its initial value, which is the sentinel (or `0` for the base cell,
whose subset contains the start). -/
theorem claim10_dp_invariant {g : List (List ℚ)} {startNode : ℕ}
    (hv : ValidInstance g startNode) {S : ℕ} (hS : S < 2 ^ g.length) (i : ℕ) :
    (dpT (cOf g) g.length (startNode - 1) S i < INF →
      S.testBit (startNode - 1) = true ∧ S.testBit i = true) ∧
    (S.testBit (startNode - 1) = false →
      dpT (cOf g) g.length (startNode - 1) S i = INF) := by
  have hc := cOf_nonneg hv.2.1
  constructor
  · intro h
    refine ⟨?_, testBit_of_dpT_lt h⟩
    obtain ⟨p, hp, _⟩ := dpT_path hc hS h
    exact (hp.2.2.2 (startNode - 1)).1 (mem_of_head_some hp.2.1)
  · intro hb
    by_contra hne
    have hlt : dpT (cOf g) g.length (startNode - 1) S i < INF :=
      lt_of_le_of_ne (dpT_le_INF _ _ _ _ _) hne
    obtain ⟨p, hp, _⟩ := dpT_path hc hS hlt
    rw [(hp.2.2.2 (startNode - 1)).1 (mem_of_head_some hp.2.1)] at hb
    exact Bool.noConfusion hb

/-- C10 (witness): the invariant applied to `[[0, 1], [1, 0]]`, start `1`,
subset `{0, 1}`, cell `1`. -/
theorem claim10_dp_invariant_witness :
    ValidInstance [[0, 1], [1, 0]] 1 ∧ 3 < 2 ^ List.length [[(0 : ℚ), 1], [1, 0]] ∧
      ((dpT (cOf [[0, 1], [1, 0]]) (List.length [[(0 : ℚ), 1], [1, 0]]) (1 - 1) 3 1 < INF →
        (3 : ℕ).testBit (1 - 1) = true ∧ (3 : ℕ).testBit 1 = true) ∧
      ((3 : ℕ).testBit (1 - 1) = false →
        dpT (cOf [[0, 1], [1, 0]]) (List.length [[(0 : ℚ), 1], [1, 0]]) (1 - 1) 3 1
          = INF)) := by
  have hv : ValidInstance [[0, 1], [1, 0]] 1 := by
    unfold ValidInstance
    with_unfolding_all decide
  exact ⟨hv, by decide, claim10_dp_invariant hv (by decide) 1⟩

end TSP
